import Mathlib

/-!
Verification of the SNBit uploader request-handling core (`src/snbit_uploader.py`).

The Python byte strings of request bodies are modeled as `List Char`, one
character per byte; Python `str` values are modeled as `String`.  All
definitions in the first part of this file are shallow embeddings of the
corresponding Python functions and handler bodies; theorems about them follow.
-/

namespace SNBit

/-- Request-body byte strings, one character per byte. -/
abbrev Bytes := List Char

/-- Characters that Python's `str.strip()` / `bytes.strip()` remove:
space, tab, newline, carriage return, vertical tab, form feed. -/
def pyWs (c : Char) : Bool :=
  c == ' ' || c == '\t' || c == '\n' || c == '\r' || c == '\x0b' || c == '\x0c'

/-- Strip characters satisfying `p` from both ends of a list. -/
def stripData (p : Char → Bool) (l : List Char) : List Char :=
  ((l.dropWhile p).reverse.dropWhile p).reverse

/-- Python `str.strip()` with no arguments. -/
def pyStrip (s : String) : String := ⟨stripData pyWs s.data⟩

/-- Python `str.strip('"')`: remove double quotes from both ends. -/
def stripQuotes (s : String) : String := ⟨stripData (fun c => c == '"') s.data⟩

/-- Python `s.startswith(pre)`, on the underlying character lists. -/
def strStartsWith (s pre : String) : Bool := decide (pre.data <+: s.data)

/-- Python `s.endswith(post)`, on the underlying character lists. -/
def strEndsWith (s post : String) : Bool := decide (post.data <:+ s.data)

/-- Python `str.lower()`, restricted to ASCII case mapping (filenames and
extensions compared by the code are ASCII). -/
def strLower (s : String) : String := ⟨s.data.map Char.toLower⟩

/-- Python slicing `s[n:]`. -/
def strDrop (s : String) (n : ℕ) : String := ⟨s.data.drop n⟩

/-! ### The extension allow-set and `is_allowed_file` (source lines 29, 219-221) -/

/-- `ALLOWED_EXTENSIONS` from the source (a literal set; order is irrelevant
to the membership test below). -/
def ALLOWED_EXTENSIONS : List String :=
  [".txt", ".pdf", ".png", ".jpg", ".jpeg", ".gif", ".zip", ".docx", ".mp4", ".mp3"]

/-- `is_allowed_file(filename)`:
`any(filename.lower().endswith(ext) for ext in ALLOWED_EXTENSIONS)`. -/
def is_allowed_file (filename : String) : Bool :=
  ALLOWED_EXTENSIONS.any (fun ext => strEndsWith (strLower filename) ext)

/-! ### Decimal printing of naturals

Python's f-string formatting prints integers in decimal.  `natRepr` is a
fuel-based decimal printer (fuel `n` always suffices since `n / 10 < n`). -/

def natReprAux : ℕ → ℕ → List Char
  | 0, _ => []
  | fuel + 1, n =>
    if n = 0 then [] else natReprAux fuel (n / 10) ++ [Nat.digitChar (n % 10)]

/-- Decimal representation of a natural number. -/
def natRepr (n : ℕ) : String := if n = 0 then ⟨['0']⟩ else ⟨natReprAux n n⟩

/-- Read a digit string back as a number; left inverse of `natRepr`. -/
def decodeDigits (l : List Char) : ℕ :=
  l.foldl (fun a c => 10 * a + (c.toNat - 48)) 0

theorem digitChar_toNat (d : ℕ) (hd : d < 10) : (Nat.digitChar d).toNat - 48 = d := by
  interval_cases d <;> rfl

theorem decodeDigits_append_singleton (l : List Char) (c : Char) :
    decodeDigits (l ++ [c]) = 10 * decodeDigits l + (c.toNat - 48) := by
  simp [decodeDigits, List.foldl_append]

theorem decode_natReprAux : ∀ fuel n, n ≤ fuel → decodeDigits (natReprAux fuel n) = n := by
  intro fuel
  induction fuel with
  | zero =>
    intro n hn
    have : n = 0 := Nat.le_zero.mp hn
    simp [this, natReprAux, decodeDigits]
  | succ fuel ih =>
    intro n hn
    by_cases h0 : n = 0
    · simp [h0, natReprAux, decodeDigits]
    · have hpos : 0 < n := Nat.pos_of_ne_zero h0
      have hlt : n / 10 < n := Nat.div_lt_self hpos (by norm_num)
      have hdiv : n / 10 ≤ fuel := by omega
      have hmod : n % 10 < 10 := Nat.mod_lt _ (by norm_num)
      rw [natReprAux, if_neg h0, decodeDigits_append_singleton, ih _ hdiv,
        digitChar_toNat _ hmod]
      omega

theorem decode_natRepr (n : ℕ) : decodeDigits (natRepr n).data = n := by
  by_cases h : n = 0
  · simp [h, natRepr, decodeDigits]
  · simp only [natRepr, if_neg h]
    exact decode_natReprAux n n le_rfl

theorem natRepr_injective : Function.Injective natRepr := by
  intro a b h
  have := congrArg (fun s => decodeDigits s.data) h
  simpa [decode_natRepr] using this

theorem natRepr_ne_nil (n : ℕ) : (natRepr n).data ≠ [] := by
  by_cases h : n = 0
  · simp [h, natRepr]
  · simp only [natRepr, if_neg h]
    obtain ⟨f, rfl⟩ : ∃ f, n = f + 1 := ⟨n - 1, by omega⟩
    simp [natReprAux, h]

theorem natReprAux_digits : ∀ fuel n c, c ∈ natReprAux fuel n → c.isDigit = true := by
  intro fuel
  induction fuel with
  | zero => intro n c hc; simp [natReprAux] at hc
  | succ fuel ih =>
    intro n c hc
    by_cases h0 : n = 0
    · simp [natReprAux, h0] at hc
    · rw [natReprAux, if_neg h0] at hc
      rcases List.mem_append.mp hc with h | h
      · exact ih _ _ h
      · have hmod : n % 10 < 10 := Nat.mod_lt _ (Nat.pos_of_ne_zero (by norm_num))
        have hc' : c = Nat.digitChar (n % 10) := by simpa using h
        subst hc'
        interval_cases h : (n % 10) <;> rfl

theorem natRepr_digits (n : ℕ) (c : Char) (hc : c ∈ (natRepr n).data) :
    c.isDigit = true := by
  by_cases h : n = 0
  · simp [h, natRepr] at hc
    subst hc; rfl
  · rw [natRepr, if_neg h] at hc
    exact natReprAux_digits n n c hc

/-! ### `format_file_size` (source lines 223-232)

The Python loop repeatedly divides a float by `1024.0` while the value is at
least 1024 and fewer than three divisions have happened.  Dividing a float
holding an integer `n` by powers of two is exact, so the running value is
exactly `n / 1024 ^ i`; the loop test `size_bytes >= 1024` is equivalent to
`1024 ^ (i+1) ≤ n`.  The state is therefore kept as the pair `(n, i)`. -/

def size_names : List String := ["B", "KB", "MB", "GB"]

def ffsLoop : ℕ → ℕ → ℕ → ℕ × ℕ
  | 0, n, i => (n, i)
  | fuel + 1, n, i =>
    if 1024 ^ (i + 1) ≤ n ∧ i < 3 then ffsLoop fuel n (i + 1) else (n, i)

/-- Python `f"{x:.1f}"` applied to the exact value `num / den` (`den > 0`):
round half to even at one decimal place, then print. -/
def fmt1frac (num den : ℕ) : String :=
  let t10 := 10 * num
  let q := t10 / den
  let r := t10 % den
  let t := if 2 * r < den then q
           else if den < 2 * r then q + 1
           else if q % 2 = 0 then q else q + 1
  natRepr (t / 10) ++ "." ++ natRepr (t % 10)

/-- `format_file_size(size_bytes)` from the source. -/
def format_file_size (n : ℕ) : String :=
  if n = 0 then "0B"
  else
    let p := ffsLoop 3 n 0
    fmt1frac p.1 (1024 ^ p.2) ++ " " ++ size_names.getD p.2 ""

/-- Closed-form unit index: how many times the loop divides by 1024. -/
def ffsIdx (n : ℕ) : ℕ :=
  if n < 1024 then 0 else if n < 1024 ^ 2 then 1 else if n < 1024 ^ 3 then 2 else 3

theorem ffsLoop_eq_closed (n : ℕ) : ffsLoop 3 n 0 = (n, ffsIdx n) := by
  simp only [ffsLoop, ffsIdx]
  norm_num
  split_ifs <;> first | rfl | (exfalso; omega)

/-- C9: the file-size formatting function maps 0 to "0B", 1024 to "1.0 KB"
and 1048576 to "1.0 MB", and for every size the loop divides by 1024 once per
unit step, selecting unit B below 1024, KB up to 1024², MB up to 1024³ and GB
beyond, displaying the exact quotient `n / 1024 ^ i` rounded to one decimal. -/
theorem format_file_size_spec :
    format_file_size 0 = "0B" ∧
    format_file_size 1024 = "1.0 KB" ∧
    format_file_size 1048576 = "1.0 MB" ∧
    (∀ n : ℕ, ffsLoop 3 n 0 = (n, ffsIdx n)) ∧
    (∀ n : ℕ, format_file_size n =
      if n = 0 then "0B"
      else fmt1frac n (1024 ^ ffsIdx n) ++ " " ++ size_names.getD (ffsIdx n) "") := by
  refine ⟨by decide, by decide, by decide, ffsLoop_eq_closed, fun n => ?_⟩
  by_cases h : n = 0
  · simp [h, format_file_size]
  · simp [format_file_size, h, ffsLoop_eq_closed]

/-- C7: `is_allowed_file` accepts exactly the filenames whose lowercased form
ends with one of the ten allowed extensions; `a.txt` is accepted, `a.EXE` and
`a.tar.gz` are rejected. -/
theorem is_allowed_file_spec :
    (∀ f : String, is_allowed_file f = true ↔
      ∃ ext ∈ ALLOWED_EXTENSIONS, ext.data <:+ (strLower f).data) ∧
    is_allowed_file "a.txt" = true ∧
    is_allowed_file "a.EXE" = false ∧
    is_allowed_file "a.tar.gz" = false := by
  refine ⟨fun f => ?_, by decide, by decide, by decide⟩
  simp [is_allowed_file, strEndsWith, List.any_eq_true]

/-! ### POSIX path model

`os.path.join`, `os.path.abspath` and `os.path.basename` on POSIX.  All paths
the handlers canonicalize are absolute (the storage root is absolute), so
`abspath` reduces to `normpath`, modeled by `normpathAbs`. -/

/-- Prepend a character onto the first group of a split result. -/
def consHead (x : Char) : List (List Char) → List (List Char)
  | [] => [[x]]
  | g :: gs => (x :: g) :: gs

/-- Python `p.split('/')` (CPython's normpath splits on the single separator). -/
def splitCh (c : Char) : List Char → List (List Char)
  | [] => [[]]
  | x :: xs => if x = c then [] :: splitCh c xs else consHead x (splitCh c xs)

theorem splitCh_ne_nil (c : Char) (l : List Char) : splitCh c l ≠ [] := by
  cases l with
  | nil => simp [splitCh]
  | cons x xs =>
    simp only [splitCh]
    split
    · simp
    · cases h : splitCh c xs with
      | nil => simp [consHead]
      | cons g gs => simp [consHead]

theorem not_mem_of_mem_splitCh (c : Char) :
    ∀ (l : List Char), ∀ g ∈ splitCh c l, c ∉ g := by
  intro l
  induction l with
  | nil =>
    intro g hg
    simp [splitCh] at hg
    simp [hg]
  | cons x xs ih =>
    intro g hg
    simp only [splitCh] at hg
    by_cases hx : x = c
    · rw [if_pos hx] at hg
      rcases List.mem_cons.mp hg with rfl | hg'
      · simp
      · exact ih g hg'
    · rw [if_neg hx] at hg
      cases h : splitCh c xs with
      | nil => exact absurd h (splitCh_ne_nil c xs)
      | cons g0 gs =>
        rw [h, consHead] at hg
        rcases List.mem_cons.mp hg with rfl | hg'
        · intro hc
          rcases List.mem_cons.mp hc with rfl | hc'
          · exact hx rfl
          · exact ih g0 (h ▸ List.mem_cons_self g0 gs) hc'
        · exact ih g (h ▸ List.mem_cons_of_mem g0 hg')

theorem splitCh_of_not_mem {c : Char} : ∀ {l : List Char}, c ∉ l → splitCh c l = [l] := by
  intro l
  induction l with
  | nil => intro _; rfl
  | cons x xs ih =>
    intro h
    have hx : ¬ x = c := fun he => h (he ▸ List.mem_cons_self x xs)
    have hxs : c ∉ xs := fun hm => h (List.mem_cons_of_mem x hm)
    simp only [splitCh, ih hxs, if_neg hx, consHead]

theorem splitCh_append_sep (c : Char) (r nd : List Char) (h : c ∉ nd) :
    splitCh c (r ++ c :: nd) = splitCh c r ++ [nd] := by
  induction r with
  | nil =>
    simp only [List.nil_append, splitCh, splitCh_of_not_mem h, if_pos rfl]
    rfl
  | cons x xs ih =>
    simp only [List.cons_append, splitCh]
    simp only [List.append_eq]
    by_cases hx : x = c
    · rw [if_pos hx, if_pos hx, ih]
      rfl
    · rw [if_neg hx, if_neg hx, ih]
      cases h' : splitCh c xs with
      | nil => exact absurd h' (splitCh_ne_nil c xs)
      | cons g gs => simp [consHead]

/-- Join path components with `'/'` (CPython builds `sep.join(comps)`). -/
def interSlash : List (List Char) → List Char
  | [] => []
  | [g] => g
  | g :: g1 :: gs => g ++ '/' :: interSlash (g1 :: gs)

theorem interSlash_append_singleton :
    ∀ (l : List (List Char)), l ≠ [] → ∀ nd : List Char,
      interSlash (l ++ [nd]) = interSlash l ++ '/' :: nd := by
  intro l
  induction l with
  | nil => intro h; exact absurd rfl h
  | cons g gs ih =>
    intro _ nd
    cases gs with
    | nil => rfl
    | cons g1 gs1 =>
      have hrec := ih (by simp) nd
      simp only [List.cons_append] at hrec ⊢
      simp only [interSlash, hrec]
      simp

/-- One step of CPython's `normpath` component loop, specialized to absolute
paths (where `'..'` at the root is dropped and `'..'` is never pushed). -/
def normStepAbs (stack : List (List Char)) (comp : List Char) : List (List Char) :=
  if comp = [] ∨ comp = ['.'] then stack
  else if comp = ['.', '.'] then stack.dropLast
  else stack ++ [comp]

/-- The normalized component stack of an absolute path. -/
def normSegsAbs (p : String) : List (List Char) :=
  (splitCh '/' p.data).foldl normStepAbs []

/-- `os.path.normpath` (equivalently `os.path.abspath`) for absolute paths. -/
def normpathAbs (p : String) : String :=
  ⟨'/' :: interSlash (normSegsAbs p)⟩

/-- `os.path.join(a, b)` on POSIX. -/
def pathJoin (a b : String) : String :=
  if strStartsWith b "/" then b
  else if a = "" ∨ strEndsWith a "/" then a ++ b
  else a ++ "/" ++ b

/-- `os.path.basename(p)` on POSIX: everything after the last `'/'`. -/
def basename (s : String) : String := ⟨(splitCh '/' s.data).getLastD []⟩

theorem basename_no_slash (s : String) : '/' ∉ (basename s).data := by
  have hne := splitCh_ne_nil '/' s.data
  have hmem : (splitCh '/' s.data).getLastD [] ∈ splitCh '/' s.data := by
    cases h : splitCh '/' s.data with
    | nil => exact absurd h hne
    | cons g gs =>
      rw [List.getLastD_eq_getLast?, List.getLast?_eq_getLast (g :: gs) (by simp)]
      simp [List.getLast_mem]
  exact not_mem_of_mem_splitCh '/' s.data _ hmem

/-! ### The security check and the download / delete handlers
(source lines 606-668)

The filesystem is modeled as the list `fs` of canonical absolute paths of the
regular files that exist; `os.path.exists`/`os.path.isfile` both canonicalize
through the kernel, so their combined test is membership of the canonical
form of the queried path (the spec treats canonicalization as authoritative,
and directories are never regular files).  Each handler returns its outcome
together with the list of paths it touched on the filesystem, in order; the
existence probe of the joined path is always the first access. -/

/-- Combined `os.path.exists(p) and os.path.isfile(p)` over the model. -/
def isfile (fs : List String) (p : String) : Bool := decide (normpathAbs p ∈ fs)

/-- The check at source lines 617 and 654:
`os.path.abspath(filepath).startswith(os.path.abspath(UPLOAD_DIR))`. -/
def security_check (root filepath : String) : Bool :=
  strStartsWith (normpathAbs filepath) (normpathAbs root)

/-- What the spec calls a descendant of the storage root: the canonical form
begins with the canonical root followed by a separator. -/
def isDescendant (rootCanon p : String) : Prop := (rootCanon ++ "/").data <+: p.data

instance (rootCanon p : String) : Decidable (isDescendant rootCanon p) := by
  unfold isDescendant
  infer_instance

inductive HandlerResult where
  | notFound
  | accessDenied
  | servedFile (path : String)
  | fileDeleted (path : String)
deriving DecidableEq

/-- `serve_file_download` (source lines 606-641); `name` is the already
URL-unquoted remainder of the request path after `/download/`. -/
def serve_file_download (root : String) (fs : List String) (name : String) :
    HandlerResult × List String :=
  let filepath := pathJoin root name
  if ¬ isfile fs filepath then (.notFound, [filepath])
  else if ¬ security_check root filepath then (.accessDenied, [filepath])
  else (.servedFile (normpathAbs filepath), [filepath, filepath])

/-- `delete_file` (source lines 643-668); on success `os.remove(filepath)`
removes the file at the canonical path. -/
def delete_file (root : String) (fs : List String) (name : String) :
    HandlerResult × List String :=
  let filepath := pathJoin root name
  if ¬ isfile fs filepath then (.notFound, [filepath])
  else if ¬ security_check root filepath then (.accessDenied, [filepath])
  else (.fileDeleted (normpathAbs filepath), [filepath, filepath])

/-- C1: the claimed confinement fails on the code.  With storage root
`/srv/uploads`, the request name `../uploads2/secret.txt` joins and
canonicalizes to `/srv/uploads2/secret.txt`, which is not a descendant of the
root, yet the `startswith` security check (which omits the trailing
separator) passes and the handlers serve and remove the file. -/
theorem sibling_dir_escape_served :
    (serve_file_download "/srv/uploads" ["/srv/uploads2/secret.txt"]
        "../uploads2/secret.txt").1 = .servedFile "/srv/uploads2/secret.txt" ∧
    (delete_file "/srv/uploads" ["/srv/uploads2/secret.txt"]
        "../uploads2/secret.txt").1 = .fileDeleted "/srv/uploads2/secret.txt" ∧
    ¬ isDescendant (normpathAbs "/srv/uploads")
        (normpathAbs (pathJoin "/srv/uploads" "../uploads2/secret.txt")) := by
  refine ⟨?_, ?_, ?_⟩ <;> decide

/-- C2 counterexample: the traversal request `../../etc/passwd` against root
`/srv/uploads` is answered with 404 (not a 403-equivalent) when the target
does not exist, and the filesystem is probed at the out-of-root joined path
before any rejection. -/
theorem traversal_not_found_counterexample :
    ¬ isDescendant (normpathAbs "/srv/uploads")
        (normpathAbs (pathJoin "/srv/uploads" "../../etc/passwd")) ∧
    (serve_file_download "/srv/uploads" [] "../../etc/passwd").1 = .notFound ∧
    ¬ (serve_file_download "/srv/uploads" [] "../../etc/passwd").1 = .accessDenied ∧
    (delete_file "/srv/uploads" [] "../../etc/passwd").1 = .notFound ∧
    ¬ (delete_file "/srv/uploads" [] "../../etc/passwd").1 = .accessDenied ∧
    (serve_file_download "/srv/uploads" [] "../../etc/passwd").2
      = ["/srv/uploads/../../etc/passwd"] ∧
    (delete_file "/srv/uploads" [] "../../etc/passwd").2
      = ["/srv/uploads/../../etc/passwd"] := by
  refine ⟨?_, ?_, ?_, ?_, ?_, ?_, ?_⟩ <;> decide

/-- C2 amended: for every download or delete request, the handler first
probes the joined (possibly out-of-root) path — the head of the access trace
is always that path — answering 404 when it is not an existing regular file;
only then does the security check run, answering 403, and a file is served or
deleted only when the prefix security check passed. -/
theorem traversal_handling_amended (root : String) (fs : List String) (name : String) :
    (isfile fs (pathJoin root name) = false →
      serve_file_download root fs name = (.notFound, [pathJoin root name]) ∧
      delete_file root fs name = (.notFound, [pathJoin root name])) ∧
    (isfile fs (pathJoin root name) = true →
      security_check root (pathJoin root name) = false →
      serve_file_download root fs name = (.accessDenied, [pathJoin root name]) ∧
      delete_file root fs name = (.accessDenied, [pathJoin root name])) ∧
    (serve_file_download root fs name).2.head? = some (pathJoin root name) ∧
    (delete_file root fs name).2.head? = some (pathJoin root name) ∧
    (∀ p, (serve_file_download root fs name).1 = .servedFile p →
      security_check root (pathJoin root name) = true) ∧
    (∀ p, (delete_file root fs name).1 = .fileDeleted p →
      security_check root (pathJoin root name) = true) := by
  refine ⟨fun h1 => ?_, fun h1 h2 => ?_, ?_, ?_, fun p hp => ?_, fun p hp => ?_⟩
  · simp [serve_file_download, delete_file, h1]
  · simp [serve_file_download, delete_file, h1, h2]
  · simp only [serve_file_download]
    split_ifs <;> rfl
  · simp only [delete_file]
    split_ifs <;> rfl
  · simp only [serve_file_download] at hp
    split_ifs at hp with ha hb
    simpa using hb
  · simp only [delete_file] at hp
    split_ifs at hp with ha hb
    simpa using hb

/-- Witness for the amended C2 statement at a concrete traversal input. -/
theorem traversal_handling_amended_witness :
    serve_file_download "/srv/uploads" [] "../../etc/passwd"
      = (.notFound, ["/srv/uploads/../../etc/passwd"]) ∧
    delete_file "/srv/uploads" [] "../../etc/passwd"
      = (.notFound, ["/srv/uploads/../../etc/passwd"]) := by
  have h := traversal_handling_amended "/srv/uploads" [] "../../etc/passwd"
  have hf : isfile ([] : List String) (pathJoin "/srv/uploads" "../../etc/passwd") = false := by
    decide
  have hj : pathJoin "/srv/uploads" "../../etc/passwd" = "/srv/uploads/../../etc/passwd" := by
    decide
  exact ⟨hj ▸ (h.1 hf).1, hj ▸ (h.1 hf).2⟩

/-! ### Multipart upload machinery (`do_POST`, source lines 670-786)

Request-header values decoded by the code with `errors='ignore'` are modeled
as the identity on the character string. -/

/-- Python `bytes.find(sep)`: index of the first occurrence, if any. -/
def findSeq (sep : List Char) : List Char → Option ℕ
  | [] => if sep = [] then some 0 else none
  | x :: xs =>
    if sep <+: (x :: xs) then some 0
    else (findSeq sep xs).map (fun n => n + 1)

/-- Python `bytes.split(sep)` for nonempty `sep`; fuel-based recursion
(fuel `l.length` always suffices because each step consumes at least one
character). -/
def splitSeqAux (sep : List Char) : ℕ → List Char → List (List Char)
  | 0, l => [l]
  | fuel + 1, l =>
    match l with
    | [] => [[]]
    | x :: xs =>
      if sep <+: (x :: xs) then [] :: splitSeqAux sep fuel ((x :: xs).drop sep.length)
      else consHead x (splitSeqAux sep fuel xs)

def splitSeq (sep l : List Char) : List (List Char) := splitSeqAux sep l.length l

/-- Python `str.split(sep)`. -/
def splitStr (sep s : String) : List String :=
  (splitSeq sep.data s.data).map (fun l => ⟨l⟩)

/-- Python `data.rstrip(b'\r\n')`: remove all trailing CR and LF bytes. -/
def rstripCRLF (l : Bytes) : Bytes :=
  (l.reverse.dropWhile (fun c => c == '\r' || c == '\n')).reverse

/-- The `boundary=` scan over the `;`-separated `Content-Type` segments
(source lines 679-684): first stripped segment starting with `boundary=`,
unquoted. -/
def findBoundaryParam : List String → Option String
  | [] => none
  | seg :: rest =>
    let s := pyStrip seg
    if strStartsWith s "boundary=" then some (stripQuotes (strDrop s 9))
    else findBoundaryParam rest

/-- Boundary extraction including the `if not boundary` emptiness test
(source lines 686-688). -/
def extractBoundary (ct : String) : Option String :=
  match findBoundaryParam (splitStr ";" ct) with
  | none => none
  | some b => if b = "" then none else some b

/-- The `filename=` scan over one `Content-Disposition` line's `;`-separated
parameters (source lines 725-730), stopping at the first match. -/
def findFilenameParam : List String → Option String
  | [] => none
  | p :: ps =>
    let p' := pyStrip p
    if strStartsWith p' "filename=" then some (stripQuotes (strDrop p' 9))
    else findFilenameParam ps

/-- One header line of the loop at source lines 722-730: a
`Content-Disposition` line overwrites the filename when it carries a
`filename=` parameter, any other line leaves it unchanged. -/
def cdLineStep (acc : Option String) (line : String) : Option String :=
  if strStartsWith line "Content-Disposition:" then
    match findFilenameParam (splitStr ";" line) with
    | some v => some v
    | none => acc
  else acc

/-- Scan of the decoded header block for the part's filename. -/
def extractFilename (headers_section : String) : Option String :=
  (splitStr "\r\n" headers_section).foldl cdLineStep none

/-- Index of the last occurrence of `c`, if any. -/
def lastIdx (c : Char) : List Char → Option ℕ
  | [] => none
  | x :: xs =>
    match lastIdx c xs with
    | some i => some (i + 1)
    | none => if x = c then some 0 else none

/-- `os.path.splitext` on a bare (separator-free) filename, as produced by
`os.path.basename`: split at the last dot unless every character before that
dot is itself a dot (so `.bashrc` has no extension). -/
def splitext (s : String) : String × String :=
  match lastIdx '.' s.data with
  | none => (s, "")
  | some i =>
    if (s.data.take i).all (fun c => c == '.') then (s, "")
    else (⟨s.data.take i⟩, ⟨s.data.drop i⟩)

theorem splitext_append (s : String) :
    (splitext s).1.data ++ (splitext s).2.data = s.data := by
  unfold splitext
  cases lastIdx '.' s.data with
  | none => simp
  | some i =>
    dsimp only
    by_cases hall : (s.data.take i).all (fun c => c == '.') = true
    · rw [if_pos hall]
      simp
    · rw [if_neg hall]
      simp [List.take_append_drop]

/-- Candidate filenames tried by the collision loop (source lines 747-755):
the original name, then `base_k.ext` for `k = 1, 2, ...` where
`(base, ext) = os.path.splitext(original)`. -/
def cand (f : String) : ℕ → String
  | 0 => f
  | k + 1 => (splitext f).1 ++ "_" ++ natRepr (k + 1) ++ (splitext f).2

/-- Search for the first free candidate index at or above `k`; the fuel is a
termination bound for the source's `while os.path.exists(filepath)` loop
(`names.length + 1` attempts always reach a free name, see
`firstFreeAux_spec`). -/
def firstFreeAux (names : List String) (f : String) : ℕ → ℕ → ℕ
  | k, 0 => k
  | k, fuel + 1 => if cand f k ∈ names then firstFreeAux names f (k + 1) fuel else k

def firstFreeIdx (names : List String) (f : String) : ℕ :=
  firstFreeAux names f 0 (names.length + 1)

/-- The collision-avoidance (dedupe) step of `do_POST`: the first candidate
name that does not already exist under the storage root. -/
def dedupe (names : List String) (f : String) : String :=
  cand f (firstFreeIdx names f)

/-- Per-request upload state: `names` are the entries existing under the
storage root (the `os.path.exists` oracle for the dedupe loop; a successful
write adds its file), `uploaded` and `errors` are the response accumulators
of source lines 700-701, `written` records every path passed to
`open(filepath, 'wb')` and `saved` the (final name, byte content) pairs
actually persisted. -/
structure UploadState where
  names : List String
  uploaded : List String
  errors : List String
  written : List String
  saved : List (String × Bytes)
deriving DecidableEq

/-- Processing of one multipart segment (source lines 707-768).  `persist p`
is `none` when `open(p, 'wb').write(...)` succeeds and `some msg` when it
raises an exception with message `msg`. -/
def processPart (root : String) (maxFileSize : ℕ) (persist : String → Option String)
    (st : UploadState) (part : Bytes) : UploadState :=
  if stripData pyWs part = [] then st
  else
    match findSeq ['\r', '\n', '\r', '\n'] part with
    | none => st
    | some header_end =>
      let headers_section : String := ⟨part.take header_end⟩
      let file_data : Bytes := rstripCRLF (part.drop (header_end + 4))
      match extractFilename headers_section with
      | none => st
      | some fn0 =>
        if fn0 = "" ∨ file_data = [] then st
        else
          let filename := basename fn0
          if ¬ is_allowed_file filename then
            { st with errors := st.errors ++ ["File type not allowed: " ++ filename] }
          else if maxFileSize < file_data.length then
            { st with errors := st.errors ++
                ["File too large: " ++ filename ++ " (" ++
                  format_file_size file_data.length ++ ")"] }
          else
            let final := dedupe st.names filename
            let filepath := pathJoin root final
            match persist filepath with
            | none =>
              { st with names := st.names ++ [final],
                        uploaded := st.uploaded ++ [final],
                        written := st.written ++ [filepath],
                        saved := st.saved ++ [(final, file_data)] }
            | some emsg =>
              { st with errors := st.errors ++ ["Error saving " ++ final ++ ": " ++ emsg],
                        written := st.written ++ [filepath] }

inductive PostResult where
  | badRequest (code : ℕ) (msg : String)
  | ok (status : ℕ) (success : Bool) (uploaded errors : List String) (final : UploadState)
deriving DecidableEq

/-- `do_POST` (source lines 670-786).  `contentLength` is the declared
`Content-Length` (0 when the header is absent), `stream` the bytes available
on the connection, of which exactly `contentLength` are read. -/
def do_POST (root : String) (maxFileSize : ℕ) (persist : String → Option String)
    (names0 : List String) (contentType : String) (contentLength : ℕ)
    (stream : Bytes) : PostResult :=
  if ¬ strStartsWith contentType "multipart/form-data" then
    .badRequest 400 "Invalid content type"
  else
    match extractBoundary contentType with
    | none => .badRequest 400 "No boundary found"
    | some boundary =>
      if contentLength = 0 then .badRequest 400 "No content"
      else
        let body := stream.take contentLength
        let parts := splitSeq ("--" ++ boundary).data body
        let middle := (parts.drop 1).dropLast
        let st := middle.foldl (processPart root maxFileSize persist)
          ⟨names0, [], [], [], []⟩
        .ok (if st.errors = [] then 200 else 207) (decide (0 < st.uploaded.length))
          st.uploaded st.errors st

/-- Request fixture: one part `note.txt` whose file content is `hello`
followed by a newline, then the part's framing CRLF and closing boundary. -/
def newlineBody : Bytes :=
  ("--B\r\nContent-Disposition: form-data; name=\"files\"; filename=\"note.txt\"\r\n\r\nhello\n\r\n--B--\r\n").data

/-- Request fixture: a rejected `virus.exe` part followed by a good
`note.txt` part. -/
def mixedBody : Bytes :=
  ("--B\r\nContent-Disposition: form-data; name=\"files\"; filename=\"virus.exe\"\r\n\r\nmal\r\n--B\r\nContent-Disposition: form-data; name=\"files\"; filename=\"note.txt\"\r\n\r\nhello\r\n--B--\r\n").data

set_option maxRecDepth 16000 in
/-- C3: the claimed exactly-one-CRLF trimming fails on the code.  For the
part whose content is the six bytes of `hello` plus LF — so the raw segment
body is that content followed by the single framing CRLF —
`rstrip(b'\r\n')` removes the content's own trailing LF as well, and the
stored bytes are `hello`, not `hello` plus LF: the upload/download
round-trip is not byte-identical for content ending in CR or LF. -/
theorem upload_strips_all_trailing_crlf :
    ("hello\n\r\n").data = ("hello\n").data ++ ['\r', '\n'] ∧
    rstripCRLF (("hello\n\r\n").data) = ("hello").data ∧
    ¬ ("hello").data = ("hello\n").data ∧
    do_POST "/srv/uploads" 104857600 (fun _ => none) []
        "multipart/form-data; boundary=B" newlineBody.length newlineBody
      = .ok 200 true ["note.txt"] []
          ⟨["note.txt"], ["note.txt"], [], ["/srv/uploads/note.txt"],
            [("note.txt", ("hello").data)]⟩ := by
  exact ⟨by decide, by decide, by decide, by decide⟩

/-- The response fields of the final step of `do_POST`, characterized for
arbitrary accumulator values. -/
theorem response_flags_aux (up0 errs0 : List String) (st0 : UploadState)
    (status : ℕ) (succ : Bool) (up errs : List String) (stf : UploadState)
    (h : PostResult.ok (if errs0 = [] then 200 else 207) (decide (0 < up0.length)) up0 errs0 st0
      = .ok status succ up errs stf) :
    (succ = true ↔ up ≠ []) ∧ (status = 200 ↔ errs = []) ∧
    (status = 207 ↔ errs ≠ []) ∧ (up ≠ [] → errs ≠ [] → status = 207) := by
  injection h with h1 h2 h3 h4 h5
  subst h1 h2 h3 h4 h5
  refine ⟨by simp [List.length_pos], ?_, ?_, ?_⟩
  · by_cases he : errs0 = []
    · rw [if_pos he]
      exact iff_of_true rfl he
    · rw [if_neg he]
      exact iff_of_false (by decide) he
  · by_cases he : errs0 = []
    · rw [if_pos he]
      exact iff_of_false (by decide) (fun hc => hc he)
    · rw [if_neg he]
      exact iff_of_true rfl he
  · intro _ hne
    rw [if_neg hne]

/-- C5: whenever `do_POST` reaches the response step, the success flag is
true exactly when at least one file was saved, the status is 200 exactly when
the error list is empty, and 207 exactly when it is not — in particular 207
is used whenever some parts failed while others were saved. -/
theorem upload_response_flags (root : String) (maxFileSize : ℕ)
    (persist : String → Option String) (names0 : List String) (ct : String)
    (n : ℕ) (stream : Bytes) (status : ℕ) (succ : Bool) (up errs : List String)
    (stf : UploadState)
    (h : do_POST root maxFileSize persist names0 ct n stream = .ok status succ up errs stf) :
    (succ = true ↔ up ≠ []) ∧ (status = 200 ↔ errs = []) ∧
    (status = 207 ↔ errs ≠ []) ∧ (up ≠ [] → errs ≠ [] → status = 207) := by
  simp only [do_POST] at h
  split at h
  · exact absurd h (by simp)
  · split at h
    · exact absurd h (by simp)
    · split at h
      · exact absurd h (by simp)
      · exact response_flags_aux _ _ _ _ _ _ _ _ h

set_option maxRecDepth 16000 in
/-- Witness for C5 at a concrete mixed request: one rejected part, one saved
part, giving success together with status 207. -/
theorem upload_response_flags_witness :
    ((true = true) ↔ (["note.txt"] : List String) ≠ []) ∧
    ((207 : ℕ) = 200 ↔ (["File type not allowed: virus.exe"] : List String) = []) ∧
    ((207 : ℕ) = 207 ↔ (["File type not allowed: virus.exe"] : List String) ≠ []) ∧
    ((["note.txt"] : List String) ≠ [] →
      (["File type not allowed: virus.exe"] : List String) ≠ [] → (207 : ℕ) = 207) := by
  exact upload_response_flags "/srv/uploads" 104857600 (fun _ => none) []
    "multipart/form-data; boundary=B" mixedBody.length mixedBody 207 true
    ["note.txt"] ["File type not allowed: virus.exe"]
    ⟨["note.txt"], ["note.txt"], ["File type not allowed: virus.exe"],
      ["/srv/uploads/note.txt"], [("note.txt", ("hello").data)]⟩
    (by decide)

/-- C8: `do_POST` rejects the request before any part processing exactly when
the content type does not start with `multipart/form-data`, or no (nonempty)
boundary parameter can be extracted, or the declared content length is zero;
every such rejection carries code 400; and otherwise the outcome depends only
on the first `contentLength` bytes of the stream — exactly the declared
number of body bytes is read. -/
theorem do_POST_reject_iff (root : String) (maxFileSize : ℕ)
    (persist : String → Option String) (names0 : List String) (ct : String)
    (n : ℕ) (stream : Bytes) :
    ((∃ c m, do_POST root maxFileSize persist names0 ct n stream = .badRequest c m) ↔
      (strStartsWith ct "multipart/form-data" = false ∨ extractBoundary ct = none ∨ n = 0)) ∧
    (∀ c m, do_POST root maxFileSize persist names0 ct n stream = .badRequest c m → c = 400) ∧
    do_POST root maxFileSize persist names0 ct n stream
      = do_POST root maxFileSize persist names0 ct n (stream.take n) := by
  by_cases h1 : strStartsWith ct "multipart/form-data" = true
  · cases hb : extractBoundary ct with
    | none =>
      have e : ∀ s, do_POST root maxFileSize persist names0 ct n s
          = .badRequest 400 "No boundary found" := by
        intro s
        simp [do_POST, h1, hb]
      refine ⟨⟨fun _ => Or.inr (Or.inl rfl), fun _ => ⟨400, "No boundary found", e stream⟩⟩,
        ?_, by rw [e stream, e (stream.take n)]⟩
      intro c m hcm
      rw [e stream] at hcm
      injection hcm with hc _
      exact hc.symm
    | some b =>
      by_cases h0 : n = 0
      · have e : ∀ s, do_POST root maxFileSize persist names0 ct n s
            = .badRequest 400 "No content" := by
          intro s
          simp [do_POST, h1, hb, h0]
        refine ⟨⟨fun _ => Or.inr (Or.inr h0), fun _ => ⟨400, "No content", e stream⟩⟩,
          ?_, by rw [e stream, e (stream.take n)]⟩
        intro c m hcm
        rw [e stream] at hcm
        injection hcm with hc _
        exact hc.symm
      · have ebad : ∀ s c m,
            ¬ do_POST root maxFileSize persist names0 ct n s = .badRequest c m := by
          intro s c m
          simp [do_POST, h1, hb, h0]
        have e : do_POST root maxFileSize persist names0 ct n stream
            = do_POST root maxFileSize persist names0 ct n (stream.take n) := by
          simp [do_POST, h1, hb, h0, List.take_take]
        refine ⟨⟨?_, ?_⟩, ?_, e⟩
        · rintro ⟨c, m, hcm⟩
          exact absurd hcm (ebad stream c m)
        · rintro (hd | hd | hd)
          · rw [h1] at hd
            exact absurd hd (by simp)
          · exact absurd hd (by simp)
          · exact absurd hd h0
        · intro c m hcm
          exact absurd hcm (ebad stream c m)
  · have e : ∀ s, do_POST root maxFileSize persist names0 ct n s
        = .badRequest 400 "Invalid content type" := by
      intro s
      simp [do_POST, h1]
    have hfalse : strStartsWith ct "multipart/form-data" = false := by
      cases hv : strStartsWith ct "multipart/form-data"
      · rfl
      · exact absurd hv h1
    refine ⟨⟨fun _ => Or.inl hfalse, fun _ => ⟨400, "Invalid content type", e stream⟩⟩,
      ?_, by rw [e stream, e (stream.take n)]⟩
    intro c m hcm
    rw [e stream] at hcm
    injection hcm with hc _
    exact hc.symm

/-- Witness for C8: a non-multipart content type is rejected. -/
theorem do_POST_reject_iff_witness :
    ∃ c m, do_POST "/srv/uploads" 104857600 (fun _ => none) [] "text/plain" 5 []
      = .badRequest c m :=
  (do_POST_reject_iff "/srv/uploads" 104857600 (fun _ => none) [] "text/plain" 5 []).1.mpr
    (Or.inl (by decide))

/-! ### Dedupe lemmas (C6) -/

theorem cand_succ_length (f : String) (k : ℕ) :
    f.data.length < (cand f (k + 1)).data.length := by
  show f.data.length
      < ((splitext f).1 ++ "_" ++ natRepr (k + 1) ++ (splitext f).2).data.length
  rw [String.data_append, String.data_append, String.data_append]
  simp only [List.length_append]
  have h1 : (splitext f).1.data.length + (splitext f).2.data.length = f.data.length := by
    have := congrArg List.length (splitext_append f)
    simpa [List.length_append] using this
  have h2 : 0 < (natRepr (k + 1)).data.length :=
    List.length_pos.mpr (natRepr_ne_nil (k + 1))
  have h3 : ("_" : String).data.length = 1 := rfl
  omega

theorem cand_succ_data (f : String) (m : ℕ) :
    (cand f (m + 1)).data
      = (splitext f).1.data ++ ('_' :: ((natRepr (m + 1)).data ++ (splitext f).2.data)) := by
  show ((splitext f).1 ++ "_" ++ natRepr (m + 1) ++ (splitext f).2).data = _
  rw [String.data_append, String.data_append, String.data_append]
  simp [List.append_assoc]

theorem cand_injective (f : String) : Function.Injective (cand f) := by
  intro a b h
  cases a with
  | zero =>
    cases b with
    | zero => rfl
    | succ l =>
      exfalso
      have hlt := cand_succ_length f l
      have heq : f.data.length = (cand f (l + 1)).data.length := by
        have := congrArg (fun s : String => s.data.length) h
        simpa [cand] using this
      omega
  | succ k =>
    cases b with
    | zero =>
      exfalso
      have hlt := cand_succ_length f k
      have heq : (cand f (k + 1)).data.length = f.data.length := by
        have := congrArg (fun s : String => s.data.length) h
        simpa [cand] using this
      omega
    | succ l =>
      have hdata : (cand f (k + 1)).data = (cand f (l + 1)).data := congrArg String.data h
      rw [cand_succ_data f k, cand_succ_data f l] at hdata
      have h2 := List.append_cancel_left hdata
      have h3 : (natRepr (k + 1)).data ++ (splitext f).2.data
          = (natRepr (l + 1)).data ++ (splitext f).2.data := by
        simpa using h2
      have h4 := List.append_cancel_right h3
      have h5 : natRepr (k + 1) = natRepr (l + 1) := String.ext h4
      have h6 := natRepr_injective h5
      omega

theorem firstFreeAux_spec (names : List String) (f : String) :
    ∀ fuel k, (∃ j, k ≤ j ∧ j ≤ k + fuel ∧ cand f j ∉ names) →
      cand f (firstFreeAux names f k fuel) ∉ names ∧
      (∀ j, k ≤ j → j < firstFreeAux names f k fuel → cand f j ∈ names) ∧
      k ≤ firstFreeAux names f k fuel := by
  intro fuel
  induction fuel with
  | zero =>
    intro k hex
    obtain ⟨j, hj1, hj2, hj3⟩ := hex
    have hjk : j = k := by omega
    subst hjk
    simp only [firstFreeAux]
    exact ⟨hj3, fun j' hj' hlt => absurd hlt (by omega), le_rfl⟩
  | succ fuel ih =>
    intro k hex
    by_cases hk : cand f k ∈ names
    · have hex' : ∃ j, k + 1 ≤ j ∧ j ≤ (k + 1) + fuel ∧ cand f j ∉ names := by
        obtain ⟨j, hj1, hj2, hj3⟩ := hex
        have : j ≠ k := fun he => hj3 (he ▸ hk)
        exact ⟨j, by omega, by omega, hj3⟩
      obtain ⟨ha, hb, hc⟩ := ih (k + 1) hex'
      rw [firstFreeAux, if_pos hk]
      refine ⟨ha, ?_, by omega⟩
      intro j hj hlt
      rcases Nat.eq_or_lt_of_le hj with he | hj'
      · exact he ▸ hk
      · exact hb j hj' hlt
    · rw [firstFreeAux, if_neg hk]
      exact ⟨hk, fun j hj hlt => absurd hlt (by omega), le_rfl⟩

theorem exists_free_cand (names : List String) (f : String) :
    ∃ j, j ≤ names.length + 1 ∧ cand f j ∉ names := by
  by_contra hall
  push_neg at hall
  have hmap : ∀ x ∈ (List.range (names.length + 2)).map (cand f), x ∈ names := by
    intro x hx
    obtain ⟨j, hj, rfl⟩ := List.mem_map.mp hx
    have hj' : j ≤ names.length + 1 := by
      have := List.mem_range.mp hj
      omega
    exact hall j hj'
  have hnodup : ((List.range (names.length + 2)).map (cand f)).Nodup :=
    (List.nodup_range _).map (cand_injective f)
  have hsub : ((List.range (names.length + 2)).map (cand f)).toFinset ⊆ names.toFinset := by
    intro x hx
    rw [List.mem_toFinset] at hx ⊢
    exact hmap x hx
  have hcard1 : ((List.range (names.length + 2)).map (cand f)).toFinset.card
      = names.length + 2 := by
    rw [List.toFinset_card_of_nodup hnodup, List.length_map, List.length_range]
  have hcard2 : names.toFinset.card ≤ names.length := names.toFinset_card_le
  have hle := Finset.card_le_card hsub
  omega

/-- The dedupe step returns the first candidate not already present: it is
fresh, and every earlier candidate is taken. -/
theorem dedupe_spec (names : List String) (f : String) :
    dedupe names f ∉ names ∧
    ∃ k, dedupe names f = cand f k ∧ ∀ j < k, cand f j ∈ names := by
  obtain ⟨j, hj1, hj2⟩ := exists_free_cand names f
  have hex : ∃ j', 0 ≤ j' ∧ j' ≤ 0 + (names.length + 1) ∧ cand f j' ∉ names :=
    ⟨j, by omega, by omega, hj2⟩
  obtain ⟨ha, hb, _⟩ := firstFreeAux_spec names f (names.length + 1) 0 hex
  exact ⟨ha, firstFreeIdx names f, rfl, fun j' hj' => hb j' (by omega) hj'⟩

/-- Stored names produced by uploading the same original filename `N` times
in sequence: each successful write adds the final name to the directory, so
the next dedupe sees it. -/
def storedNames (names : List String) (f : String) : ℕ → List String
  | 0 => []
  | n + 1 => storedNames names f n ++ [dedupe (names ++ storedNames names f n) f]

theorem storedNames_length (names : List String) (f : String) :
    ∀ N, (storedNames names f N).length = N := by
  intro N
  induction N with
  | zero => rfl
  | succ n ih => simp [storedNames, ih]

theorem storedNames_nodup_fresh (names : List String) (f : String) :
    ∀ N, (storedNames names f N).Nodup ∧ ∀ s ∈ storedNames names f N, s ∉ names := by
  intro N
  induction N with
  | zero => simp [storedNames]
  | succ n ih =>
    obtain ⟨h1, h2⟩ := ih
    have hnew := (dedupe_spec (names ++ storedNames names f n) f).1
    rw [List.mem_append, not_or] at hnew
    constructor
    · rw [storedNames, List.nodup_append]
      refine ⟨h1, List.nodup_singleton _, ?_⟩
      intro s hs
      simp only [List.mem_singleton]
      intro he
      exact hnew.2 (he ▸ hs)
    · intro s hs
      rw [storedNames, List.mem_append] at hs
      rcases hs with hs | hs
      · exact h2 s hs
      · rw [List.mem_singleton] at hs
        exact hs ▸ hnew.1

theorem storedNames_pattern (names : List String) (f : String)
    (hfree : ∀ k, cand f k ∉ names) :
    ∀ N, storedNames names f N = (List.range N).map (cand f) := by
  intro N
  induction N with
  | zero => rfl
  | succ n ih =>
    rw [storedNames, ih, List.range_succ, List.map_append]
    congr 1
    have key : dedupe (names ++ (List.range n).map (cand f)) f = cand f n := by
      obtain ⟨hfreeD, k, hk, hmin⟩ := dedupe_spec (names ++ (List.range n).map (cand f)) f
      rw [hk] at hfreeD
      have h1 : ¬ k < n := by
        intro hlt
        exact hfreeD (List.mem_append_right _
          (List.mem_map.mpr ⟨k, List.mem_range.mpr hlt, rfl⟩))
      have h2 : ¬ n < k := by
        intro hlt
        have hmem := hmin n hlt
        rcases List.mem_append.mp hmem with hA | hB
        · exact hfree n hA
        · obtain ⟨j, hj, hje⟩ := List.mem_map.mp hB
          have hjn := cand_injective f hje
          have := List.mem_range.mp hj
          omega
      have hkn : k = n := by omega
      rw [hk, hkn]
    rw [key]
    simp

/-- C6: uploading the same filename `N ≥ 1` times yields `N` stored names,
pairwise distinct and distinct from everything already present; when no
candidate name pre-exists (e.g. an empty root), the names follow exactly the
pattern `f`, `base_1.ext`, `base_2.ext`, …, where the numeric suffix is
inserted between the `splitext` base and extension of `f` and incremented
until a free name is found. -/
theorem dedupe_repetition_spec (names : List String) (f : String) (N : ℕ)
    (_hN : 1 ≤ N) :
    ((storedNames names f N).Nodup ∧ (∀ s ∈ storedNames names f N, s ∉ names) ∧
      (storedNames names f N).length = N) ∧
    ((∀ k, cand f k ∉ names) → storedNames names f N = (List.range N).map (cand f)) ∧
    (cand f 0 = f ∧
      (∀ k, cand f (k + 1) = (splitext f).1 ++ "_" ++ natRepr (k + 1) ++ (splitext f).2) ∧
      (splitext f).1.data ++ (splitext f).2.data = f.data) := by
  obtain ⟨h1, h2⟩ := storedNames_nodup_fresh names f N
  exact ⟨⟨h1, h2, storedNames_length names f N⟩,
    fun hfree => storedNames_pattern names f hfree N,
    rfl, fun k => rfl, splitext_append f⟩

/-- Witness for C6: three uploads of `report.pdf` into an empty root store
`report.pdf`, `report_1.pdf`, `report_2.pdf`. -/
theorem dedupe_repetition_witness :
    storedNames [] "report.pdf" 3 = ["report.pdf", "report_1.pdf", "report_2.pdf"] ∧
    (storedNames [] "report.pdf" 3).Nodup := by
  have h := dedupe_repetition_spec [] "report.pdf" 3 (by norm_num)
  have hp := h.2.1 (fun k => List.not_mem_nil _)
  refine ⟨?_, h.1.1⟩
  rw [hp]
  decide

/-! ### Per-part processing lemmas (C4, C10) -/

/-- One multipart segment only ever appends to the request state: the effect
on each accumulator is a (possibly empty) suffix determined by the part and
the existing directory names alone, never by the previously accumulated
response fields. -/
theorem processPart_shape (root : String) (maxFileSize : ℕ)
    (persist : String → Option String) (part : Bytes) (n : List String) :
    ∃ dn du de dw ds, ∀ u e w s,
      processPart root maxFileSize persist ⟨n, u, e, w, s⟩ part
        = ⟨n ++ dn, u ++ du, e ++ de, w ++ dw, s ++ ds⟩ := by
  by_cases hs : stripData pyWs part = []
  · exact ⟨[], [], [], [], [], fun u e w s => by simp [processPart, hs]⟩
  · cases hf : findSeq ['\r', '\n', '\r', '\n'] part with
    | none => exact ⟨[], [], [], [], [], fun u e w s => by simp [processPart, hs, hf]⟩
    | some hEnd =>
      cases hx : extractFilename ⟨part.take hEnd⟩ with
      | none => exact ⟨[], [], [], [], [], fun u e w s => by simp [processPart, hs, hf, hx]⟩
      | some fn0 =>
        by_cases h0 : fn0 = "" ∨ rstripCRLF (part.drop (hEnd + 4)) = []
        · exact ⟨[], [], [], [], [], fun u e w s => by simp [processPart, hs, hf, hx, h0]⟩
        · by_cases hA : is_allowed_file (basename fn0) = true
          · by_cases hSz : maxFileSize < (rstripCRLF (part.drop (hEnd + 4))).length
            · exact ⟨[], [],
                ["File too large: " ++ basename fn0 ++ " (" ++
                  format_file_size (rstripCRLF (part.drop (hEnd + 4))).length ++ ")"],
                [], [],
                fun u e w s => by simp [processPart, hs, hf, hx, h0, hA, hSz]⟩
            · cases hp : persist (pathJoin root (dedupe n (basename fn0))) with
              | none =>
                exact ⟨[dedupe n (basename fn0)], [dedupe n (basename fn0)], [],
                  [pathJoin root (dedupe n (basename fn0))],
                  [(dedupe n (basename fn0), rstripCRLF (part.drop (hEnd + 4)))],
                  fun u e w s => by simp [processPart, hs, hf, hx, h0, hA, hSz, hp]⟩
              | some emsg =>
                exact ⟨[], [],
                  ["Error saving " ++ dedupe n (basename fn0) ++ ": " ++ emsg],
                  [pathJoin root (dedupe n (basename fn0))], [],
                  fun u e w s => by simp [processPart, hs, hf, hx, h0, hA, hSz, hp]⟩
          · exact ⟨[], [], ["File type not allowed: " ++ basename fn0], [], [],
              fun u e w s => by simp [processPart, hs, hf, hx, h0, hA]⟩

/-- Fold version of `processPart_shape`: a whole sequence of parts appends
suffixes determined only by the parts and the starting directory names. -/
theorem foldl_processPart_shape (root : String) (maxFileSize : ℕ)
    (persist : String → Option String) :
    ∀ (parts : List Bytes) (n : List String),
      ∃ dn du de dw ds, ∀ u e w s,
        List.foldl (processPart root maxFileSize persist) ⟨n, u, e, w, s⟩ parts
          = ⟨n ++ dn, u ++ du, e ++ de, w ++ dw, s ++ ds⟩ := by
  intro parts
  induction parts with
  | nil => exact fun n => ⟨[], [], [], [], [], fun u e w s => by simp⟩
  | cons p ps ih =>
    intro n
    obtain ⟨dn1, du1, de1, dw1, ds1, h1⟩ := processPart_shape root maxFileSize persist p n
    obtain ⟨dn2, du2, de2, dw2, ds2, h2⟩ := ih (n ++ dn1)
    refine ⟨dn1 ++ dn2, du1 ++ du2, de1 ++ de2, dw1 ++ dw2, ds1 ++ ds2, fun u e w s => ?_⟩
    rw [List.foldl_cons, h1 u e w s, h2 (u ++ du1) (e ++ de1) (w ++ dw1) (s ++ ds1)]
    simp [List.append_assoc]

/-- C4: a validation rejection (disallowed extension or oversize) and a
persist failure each append exactly one structured error and leave everything
else unchanged; every part's effect is a pure append determined by the part
and the existing names (never aborting and never depending on earlier
errors); and folding literally continues with the remaining parts after each
part's state update. -/
theorem per_part_failure_no_abort (root : String) (maxFileSize : ℕ)
    (persist : String → Option String) :
    (∀ (st : UploadState) (part : Bytes) (hEnd : ℕ) (fn0 : String),
      stripData pyWs part ≠ [] →
      findSeq ['\r', '\n', '\r', '\n'] part = some hEnd →
      extractFilename ⟨part.take hEnd⟩ = some fn0 →
      ¬ (fn0 = "" ∨ rstripCRLF (part.drop (hEnd + 4)) = []) →
      is_allowed_file (basename fn0) = false →
      processPart root maxFileSize persist st part
        = { st with errors := st.errors ++ ["File type not allowed: " ++ basename fn0] }) ∧
    (∀ (st : UploadState) (part : Bytes) (hEnd : ℕ) (fn0 : String),
      stripData pyWs part ≠ [] →
      findSeq ['\r', '\n', '\r', '\n'] part = some hEnd →
      extractFilename ⟨part.take hEnd⟩ = some fn0 →
      ¬ (fn0 = "" ∨ rstripCRLF (part.drop (hEnd + 4)) = []) →
      is_allowed_file (basename fn0) = true →
      maxFileSize < (rstripCRLF (part.drop (hEnd + 4))).length →
      processPart root maxFileSize persist st part
        = { st with errors := st.errors ++
            ["File too large: " ++ basename fn0 ++ " (" ++
              format_file_size (rstripCRLF (part.drop (hEnd + 4))).length ++ ")"] }) ∧
    (∀ (st : UploadState) (part : Bytes) (hEnd : ℕ) (fn0 emsg : String),
      stripData pyWs part ≠ [] →
      findSeq ['\r', '\n', '\r', '\n'] part = some hEnd →
      extractFilename ⟨part.take hEnd⟩ = some fn0 →
      ¬ (fn0 = "" ∨ rstripCRLF (part.drop (hEnd + 4)) = []) →
      is_allowed_file (basename fn0) = true →
      ¬ maxFileSize < (rstripCRLF (part.drop (hEnd + 4))).length →
      persist (pathJoin root (dedupe st.names (basename fn0))) = some emsg →
      processPart root maxFileSize persist st part
        = { st with
            errors := st.errors ++
              ["Error saving " ++ dedupe st.names (basename fn0) ++ ": " ++ emsg],
            written := st.written ++ [pathJoin root (dedupe st.names (basename fn0))] }) ∧
    (∀ (parts : List Bytes) (n : List String),
      ∃ dn du de dw ds, ∀ u e w s,
        List.foldl (processPart root maxFileSize persist) ⟨n, u, e, w, s⟩ parts
          = ⟨n ++ dn, u ++ du, e ++ de, w ++ dw, s ++ ds⟩) ∧
    (∀ (st : UploadState) (part : Bytes) (rest : List Bytes),
      List.foldl (processPart root maxFileSize persist) st (part :: rest)
        = List.foldl (processPart root maxFileSize persist)
            (processPart root maxFileSize persist st part) rest) := by
  refine ⟨?_, ?_, ?_, foldl_processPart_shape root maxFileSize persist,
    fun st part rest => rfl⟩
  · intro st part hEnd fn0 h1 h2 h3 h4 h5
    simp [processPart, h1, h2, h3, h4, h5]
  · intro st part hEnd fn0 h1 h2 h3 h4 h5 h6
    simp [processPart, h1, h2, h3, h4, h5, h6]
  · intro st part hEnd fn0 emsg h1 h2 h3 h4 h5 h6 h7
    simp [processPart, h1, h2, h3, h4, h5, h6, h7]

/-- Request fixture: the `virus.exe` segment of `mixedBody` as produced by
the boundary split. -/
def virusPart : Bytes :=
  ("\r\nContent-Disposition: form-data; name=\"files\"; filename=\"virus.exe\"\r\n\r\nmal\r\n").data

set_option maxRecDepth 16000 in
/-- Witness for C4: a disallowed-extension part appends exactly the
structured error to an initial state and changes nothing else. -/
theorem per_part_failure_no_abort_witness :
    processPart "/srv/uploads" 104857600 (fun _ => none) ⟨[], [], [], [], []⟩ virusPart
      = ⟨[], [], ["File type not allowed: virus.exe"], [], []⟩ := by
  have h := (per_part_failure_no_abort "/srv/uploads" 104857600 (fun _ => none)).1
    ⟨[], [], [], [], []⟩ virusPart 68 "virus.exe" (by decide) (by decide) (by decide)
    (by decide) (by decide)
  exact h.trans (by decide)

/-! ### Lexical confinement of upload writes (C10) -/

/-- A bare filename: nonempty, free of path separators, and not a dot
directory reference. -/
def simpleName (nm : String) : Prop :=
  nm.data ≠ [] ∧ '/' ∉ nm.data ∧ nm ≠ "." ∧ nm ≠ ".."

theorem is_allowed_length {nm : String} (h : is_allowed_file nm = true) :
    4 ≤ nm.data.length := by
  rw [is_allowed_file, List.any_eq_true] at h
  obtain ⟨ext, hext, hsuf⟩ := h
  rw [strEndsWith, decide_eq_true_iff] at hsuf
  have hlen := hsuf.length_le
  have hl2 : (strLower nm).data.length = nm.data.length := by simp [strLower]
  have hext4 : 4 ≤ ext.data.length := by
    fin_cases hext <;> decide
  omega

theorem cand_no_slash {f : String} (hf : '/' ∉ f.data) (k : ℕ) :
    '/' ∉ (cand f k).data := by
  cases k with
  | zero => exact hf
  | succ m =>
    rw [cand_succ_data]
    intro hmem
    rcases List.mem_append.mp hmem with h | h
    · exact hf (splitext_append f ▸ List.mem_append_left _ h)
    · rcases List.mem_cons.mp h with h' | h'
      · exact absurd h' (by decide)
      · rcases List.mem_append.mp h' with h'' | h''
        · have := natRepr_digits (m + 1) '/' h''
          exact absurd this (by decide)
        · exact hf (splitext_append f ▸ List.mem_append_right _ h'')

theorem cand_length_ge {f : String} (h4 : 4 ≤ f.data.length) (k : ℕ) :
    4 ≤ (cand f k).data.length := by
  cases k with
  | zero => exact h4
  | succ m =>
    have := cand_succ_length f m
    omega

theorem simpleName_of (nm : String) (h4 : 4 ≤ nm.data.length) (hs : '/' ∉ nm.data) :
    simpleName nm := by
  refine ⟨?_, hs, ?_, ?_⟩
  · intro he
    rw [he] at h4
    exact absurd h4 (by decide)
  · intro he
    rw [he] at h4
    exact absurd h4 (by decide)
  · intro he
    rw [he] at h4
    exact absurd h4 (by decide)

theorem dedupe_simpleName {names : List String} {fn : String}
    (hslash : '/' ∉ fn.data) (hallow : is_allowed_file fn = true) :
    simpleName (dedupe names fn) :=
  simpleName_of _ (cand_length_ge (is_allowed_length hallow) _) (cand_no_slash hslash _)

/-- Appending one normal segment to an absolute path extends the normalized
component stack by that segment. -/
theorem normSegs_append_seg (r nd : List Char) (hnd : '/' ∉ nd)
    (h1 : nd ≠ []) (h2 : nd ≠ ['.']) (h3 : nd ≠ ['.', '.']) :
    (splitCh '/' (r ++ '/' :: nd)).foldl normStepAbs []
      = (splitCh '/' r).foldl normStepAbs [] ++ [nd] := by
  rw [splitCh_append_sep '/' r nd hnd, List.foldl_append]
  simp [normStepAbs, h1, h2, h3]

theorem simpleName_data_facts {nm : String} (h : simpleName nm) :
    nm.data ≠ [] ∧ nm.data ≠ ['.'] ∧ nm.data ≠ ['.', '.'] := by
  obtain ⟨hne, _, hd1, hd2⟩ := h
  refine ⟨hne, fun he => hd1 (String.ext he), fun he => hd2 (String.ext he)⟩

/-- Joining a simple name onto an absolute directory yields a canonical path
that is the canonical directory plus a separator plus the name. -/
theorem normpathAbs_join (root nm : String) (hroot : root ≠ "")
    (hstack : normSegsAbs root ≠ []) (hnm : simpleName nm) :
    normpathAbs (pathJoin root nm) = normpathAbs root ++ "/" ++ nm := by
  obtain ⟨hd0, hd1, hd2⟩ := simpleName_data_facts hnm
  have hslash := hnm.2.1
  have hstart : strStartsWith nm "/" = false := by
    rw [strStartsWith, decide_eq_false_iff_not]
    intro hpre
    obtain ⟨t, ht⟩ := hpre
    apply hslash
    rw [← ht]
    exact List.mem_append_left _ (by decide)
  have hsegs : normSegsAbs (pathJoin root nm) = normSegsAbs root ++ [nm.data] := by
    by_cases hend : strEndsWith root "/" = true
    · have hcond : root = "" ∨ strEndsWith root "/" = true := Or.inr hend
      have hjoin : pathJoin root nm = root ++ nm := by
        rw [pathJoin, hstart]
        simp [hcond]
      rw [strEndsWith, decide_eq_true_iff] at hend
      obtain ⟨r', hr'⟩ := hend
      have hr'' : root.data = r' ++ ['/'] := by
        rw [← hr']
      have hpdata : (pathJoin root nm).data = r' ++ '/' :: nm.data := by
        rw [hjoin, String.data_append, hr'']
        simp
      have hrootsegs : normSegsAbs root = (splitCh '/' r').foldl normStepAbs [] := by
        rw [normSegsAbs, hr'']
        have : r' ++ ['/'] = r' ++ '/' :: ([] : List Char) := by simp
        rw [this, splitCh_append_sep '/' r' [] (by simp), List.foldl_append]
        simp [normStepAbs]
      rw [normSegsAbs, hpdata, normSegs_append_seg r' nm.data hslash hd0 hd1 hd2,
        hrootsegs]
    · have hroot' : ¬ (root = "" ∨ strEndsWith root "/" = true) := by
        rintro (hc | hc)
        · exact hroot hc
        · rw [hc] at hend
          exact hend rfl
      have hjoin : pathJoin root nm = root ++ "/" ++ nm := by
        rw [pathJoin, hstart]
        simp only [Bool.false_eq_true, if_false]
        rw [if_neg hroot']
      have hpdata : (pathJoin root nm).data = root.data ++ '/' :: nm.data := by
        rw [hjoin, String.data_append, String.data_append]
        simp
      rw [normSegsAbs, hpdata, normSegs_append_seg root.data nm.data hslash hd0 hd1 hd2]
      rfl
  apply String.ext
  rw [normpathAbs, hsegs, interSlash_append_singleton _ hstack nm.data]
  rw [String.data_append, String.data_append]
  simp [normpathAbs]

/-- Every path passed to `open(filepath, 'wb')` by one part is the storage
root joined with a simple name, provided all previously written paths were. -/
theorem processPart_written_within (root : String) (maxFileSize : ℕ)
    (persist : String → Option String) (st : UploadState) (part : Bytes)
    (hinv : ∀ p ∈ st.written, ∃ nm, simpleName nm ∧ p = pathJoin root nm) :
    ∀ p ∈ (processPart root maxFileSize persist st part).written,
      ∃ nm, simpleName nm ∧ p = pathJoin root nm := by
  by_cases hs : stripData pyWs part = []
  · simpa [processPart, hs] using hinv
  · cases hf : findSeq ['\r', '\n', '\r', '\n'] part with
    | none => simpa [processPart, hs, hf] using hinv
    | some hEnd =>
      cases hx : extractFilename ⟨part.take hEnd⟩ with
      | none => simpa [processPart, hs, hf, hx] using hinv
      | some fn0 =>
        by_cases h0 : fn0 = "" ∨ rstripCRLF (part.drop (hEnd + 4)) = []
        · simpa [processPart, hs, hf, hx, h0] using hinv
        · by_cases hA : is_allowed_file (basename fn0) = true
          · have hgood : simpleName (dedupe st.names (basename fn0)) :=
              dedupe_simpleName (basename_no_slash fn0) hA
            by_cases hSz : maxFileSize < (rstripCRLF (part.drop (hEnd + 4))).length
            · simpa [processPart, hs, hf, hx, h0, hA, hSz] using hinv
            · cases hp : persist (pathJoin root (dedupe st.names (basename fn0))) with
              | none =>
                have hres : (processPart root maxFileSize persist st part).written
                    = st.written ++ [pathJoin root (dedupe st.names (basename fn0))] := by
                  simp [processPart, hs, hf, hx, h0, hA, hSz, hp]
                rw [hres]
                intro p hpmem
                rcases List.mem_append.mp hpmem with hold | hnew
                · exact hinv p hold
                · rw [List.mem_singleton] at hnew
                  exact ⟨_, hgood, hnew⟩
              | some emsg =>
                have hres : (processPart root maxFileSize persist st part).written
                    = st.written ++ [pathJoin root (dedupe st.names (basename fn0))] := by
                  simp [processPart, hs, hf, hx, h0, hA, hSz, hp]
                rw [hres]
                intro p hpmem
                rcases List.mem_append.mp hpmem with hold | hnew
                · exact hinv p hold
                · rw [List.mem_singleton] at hnew
                  exact ⟨_, hgood, hnew⟩
          · simpa [processPart, hs, hf, hx, h0, hA] using hinv

theorem foldl_written_within (root : String) (maxFileSize : ℕ)
    (persist : String → Option String) :
    ∀ (parts : List Bytes) (st : UploadState),
      (∀ p ∈ st.written, ∃ nm, simpleName nm ∧ p = pathJoin root nm) →
      ∀ p ∈ (List.foldl (processPart root maxFileSize persist) st parts).written,
        ∃ nm, simpleName nm ∧ p = pathJoin root nm := by
  intro parts
  induction parts with
  | nil => exact fun st hinv => hinv
  | cons q qs ih =>
    intro st hinv
    exact ih _ (processPart_written_within root maxFileSize persist st q hinv)

/-- C10: every path the upload handler opens for writing is the storage root
joined with a bare filename — nonempty, free of `/`, and not `.` or `..`
(the client name is reduced by `os.path.basename` before validation, dedupe
and joining) — and for an absolute non-root storage directory its canonical
form is the canonical root plus a separator plus that name. -/
theorem upload_writes_within_root (root : String) (maxFileSize : ℕ)
    (persist : String → Option String) (names0 : List String) (ct : String)
    (n : ℕ) (stream : Bytes) (status : ℕ) (succ : Bool) (up errs : List String)
    (stf : UploadState)
    (h : do_POST root maxFileSize persist names0 ct n stream = .ok status succ up errs stf) :
    ∀ p ∈ stf.written, ∃ nm, simpleName nm ∧ p = pathJoin root nm ∧
      (root ≠ "" → normSegsAbs root ≠ [] →
        normpathAbs p = normpathAbs root ++ "/" ++ nm) := by
  have hstf : ∀ p ∈ stf.written, ∃ nm, simpleName nm ∧ p = pathJoin root nm := by
    simp only [do_POST] at h
    split at h
    · exact absurd h (by simp)
    · split at h
      · exact absurd h (by simp)
      · split at h
        · exact absurd h (by simp)
        · injection h with h1 h2 h3 h4 h5
          rw [← h5]
          exact foldl_written_within root maxFileSize persist _ _ (by simp)
  intro p hp
  obtain ⟨nm, hnm, heq⟩ := hstf p hp
  refine ⟨nm, hnm, heq, fun hroot hstack => ?_⟩
  rw [heq]
  exact normpathAbs_join root nm hroot hstack hnm

set_option maxRecDepth 16000 in
/-- Witness for C10 at the concrete `note.txt` upload into `/srv/uploads`. -/
theorem upload_writes_within_root_witness :
    ∃ nm, simpleName nm ∧ "/srv/uploads/note.txt" = pathJoin "/srv/uploads" nm ∧
      (("/srv/uploads" : String) ≠ "" → normSegsAbs "/srv/uploads" ≠ [] →
        normpathAbs "/srv/uploads/note.txt" = normpathAbs "/srv/uploads" ++ "/" ++ nm) := by
  have h := upload_writes_within_root "/srv/uploads" 104857600 (fun _ => none) []
    "multipart/form-data; boundary=B" newlineBody.length newlineBody 200 true
    ["note.txt"] []
    ⟨["note.txt"], ["note.txt"], [], ["/srv/uploads/note.txt"],
      [("note.txt", ("hello").data)]⟩
    (by decide)
  exact h "/srv/uploads/note.txt" (by decide)

end SNBit
